import Mathlib

/-!
Verification development for the rabbitmq-cli-consumer repository.

The Go sources are embedded shallowly:
* `Json`, `HttpMessage`, `decodeInto`, `HttpMessage.parse`, `buildHeaders`,
  `buildRequest`, `buildJob` model the HTTP message handler
  (handler package: httpMessage.parse, httpMessage.reset, buildHeaders,
  buildRequest, HTTPJobBuilder.BuildJob).
* `Action`, `consumeLoopBody`, `consumeAutoAck` model the per-delivery body of
  the pool-based Consumer.Consume loop (consumer package, pool.go variant).
* `CPhase`, `consumeStep`, `consumeRun` model the control flow of
  Consumer.Consume after the stream of deliveries.
* `Sys`, `Step`, `Reach` model the worker pool: workers, dispatcher, the
  idle-worker registry channel, the bounded job queue and Pool.Release
  (pool.go: worker.start, dispatcher.dispatch, NewPool, Release).
* `effectivePrefetchCount` models the prefetch-count defaulting in consumer.New.
-/

set_option maxHeartbeats 1000000

namespace RabbitCliConsumer

/-- JSON values as produced by encoding/json decoding with `UseNumber()`:
a numeric value is kept as its original textual token (`json.Number`), never
converted to floating point.  Object fields are kept in input order; a
duplicate key is applied twice in order, as the streaming decoder does. -/
inductive Json where
  | null
  | bool (b : Bool)
  | num (tok : String)
  | str (s : String)
  | arr (elems : List Json)
  | obj (fields : List (String × Json))

/-- The fields of the Go struct `httpMessage.RequestParams`, in source order:
`URI string`, `Headers map[string]interface{}`, `Body json.RawMessage`,
`Method string`.  A `nil` map or `nil` RawMessage is `none`; `body` keeps the
raw JSON value verbatim (the model of `json.RawMessage`). -/
structure HttpMessage where
  uri : String
  headers : Option (List (String × Json))
  body : Option Json
  method : String

/-- A decode failure of `encoding/json` while filling `httpMessage`:
the input value's shape does not match the struct field named here. -/
inductive DecodeErr where
  | typeMismatch (field : String)
deriving DecidableEq

/-- Errors produced by `httpMessage.parse`: a JSON decode failure (either the
bytes are not valid JSON, or a field has the wrong shape), or one of the two
`errors.New` validation sites (`"empty http method"`, `"empty http uri"`). -/
inductive ParseErr where
  | notJson
  | decode (e : DecodeErr)
  | emptyMethod
  | emptyURI
deriving DecidableEq

/-- Whether a `ParseErr` is a decode error in the spec's taxonomy
(malformed payload), as opposed to a validation error. -/
def ParseErr.isDecode : ParseErr → Bool
  | .notJson => true
  | .decode _ => true
  | _ => false

/-- Whether a `ParseErr` is a validation error in the spec's taxonomy
(well-formed but semantically incomplete). -/
def ParseErr.isValidation : ParseErr → Bool
  | .emptyMethod => true
  | .emptyURI => true
  | _ => false

/-- Errors produced while building the request: `net/http.NewRequest`
rejecting the method (`"net/http: invalid method"`) or the URL
(`net/url.Parse` failing), or the `buildHeaders` default branch
(`"invalid header, key=..."`). -/
inductive RequestErr where
  | invalidMethod (m : String)
  | invalidURL (u : String)
  | invalidHeader (key : String)
deriving DecidableEq

/-- Errors returned by `HTTPJobBuilder.BuildJob`: a wrapped parse error
(`"could not parse message: %v"`) or a wrapped request-building error
(`"could not build http request: %v"`). -/
inductive BuildErr where
  | parse (e : ParseErr)
  | request (e : RequestErr)
deriving DecidableEq

/-- Fold a field handler over the fields of a JSON object, stopping at the
first error — the behaviour of the streaming struct decoder, with a later
duplicate key overriding an earlier one. -/
def applyFields (apply : HttpMessage → String × Json → Except DecodeErr HttpMessage) :
    HttpMessage → List (String × Json) → Except DecodeErr HttpMessage
  | msg, [] => .ok msg
  | msg, kv :: rest =>
    match apply msg kv with
    | .error e => .error e
    | .ok m => applyFields apply m rest

/-- Apply one field of the `request_params` object to the message being
decoded, as `encoding/json` does: a string fills `uri`/`method`, an object
fills `headers`, any value fills `body` (`json.RawMessage` keeps it raw,
including `null`), a JSON `null` leaves a string or map field untouched,
an unknown key is ignored, and any other shape is a decode error. -/
def applyParamField (msg : HttpMessage) (kv : String × Json) : Except DecodeErr HttpMessage :=
  if kv.1 = "uri" then
    match kv.2 with
    | .str s => .ok { msg with uri := s }
    | .null => .ok msg
    | _ => .error (.typeMismatch "uri")
  else if kv.1 = "headers" then
    match kv.2 with
    | .obj fields => .ok { msg with headers := some fields }
    | .null => .ok msg
    | _ => .error (.typeMismatch "headers")
  else if kv.1 = "body" then .ok { msg with body := some kv.2 }
  else if kv.1 = "method" then
    match kv.2 with
    | .str s => .ok { msg with method := s }
    | .null => .ok msg
    | _ => .error (.typeMismatch "method")
  else .ok msg

/-- Decode the value of the `request_params` key: an object is folded field by
field, a JSON `null` is a no-op, anything else is a decode error. -/
def decodeParams (msg : HttpMessage) : Json → Except DecodeErr HttpMessage
  | .null => .ok msg
  | .obj fields => applyFields applyParamField msg fields
  | _ => .error (.typeMismatch "request_params")

/-- Apply one top-level field: only `request_params` is known; other keys are
ignored by the struct decoder. -/
def applyTopField (msg : HttpMessage) (kv : String × Json) : Except DecodeErr HttpMessage :=
  if kv.1 = "request_params" then decodeParams msg kv.2 else .ok msg

/-- Decode a JSON value into an existing `httpMessage`, as
`json.Decoder.Decode(msg)` does: only fields present in the input are
overwritten; a top-level `null` is a no-op; a non-object top level is a
decode error. -/
def decodeInto (msg : HttpMessage) : Json → Except DecodeErr HttpMessage
  | .null => .ok msg
  | .obj fields => applyFields applyTopField msg fields
  | _ => .error (.typeMismatch "httpMessage")

/-- The zero value of `httpMessage`. -/
def emptyMessage : HttpMessage := ⟨"", none, none, ""⟩

/-- Model of `httpMessage.reset`: sets `URI = ""`, `Headers = nil`,
`Body = nil`, `Method = ""` — every field of the pooled scratch object. -/
def HttpMessage.reset (msg : HttpMessage) : HttpMessage :=
  { msg with uri := "", headers := none, body := none, method := "" }

/-- Model of `httpMessage.parse`: decode the payload (a payload that is not
valid JSON at all is `none`), then reject an empty method, then an empty URI,
in that order. -/
def HttpMessage.parse (msg : HttpMessage) (data : Option Json) : Except ParseErr HttpMessage :=
  match data with
  | none => .error .notJson
  | some j =>
    match decodeInto msg j with
    | .error e => .error (.decode e)
    | .ok m =>
      if m.method = "" then .error .emptyMethod
      else if m.uri = "" then .error .emptyURI
      else .ok m

/-- The HTTP token characters accepted by `net/http`'s method validation
(`httpguts.IsTokenRune`): ASCII letters, digits, and the characters
`! # $ % & ' * + - . ^ _ \x60 | ~`. -/
def isTokenChar (c : Char) : Bool :=
  c.isAlphanum ||
  c == '!' || c == '#' || c == '$' || c == '%' || c == '&' ||
  c == Char.ofNat 39 || c == '*' || c == '+' || c == '-' || c == '.' ||
  c == '^' || c == '_' || c == Char.ofNat 96 || c == '|' || c == '~'

/-- Model of `net/http.validMethod`: non-empty and made of token characters. -/
def validMethodB (method : String) : Bool :=
  method.length != 0 && method.toList.all isTokenChar

/-- A control byte rejected by `net/url`'s `stringContainsCTLByte`: below
0x20 or DEL (0x7f).  Non-ASCII characters encode to bytes at or above 0x80,
so checking characters is equivalent to checking bytes here. -/
def isCtlChar (c : Char) : Bool :=
  c.toNat < 0x20 || c.toNat == 0x7f

/-- A hexadecimal digit, as `net/url.ishex` accepts. -/
def isHexDigit (c : Char) : Bool :=
  c.isDigit || ('a' ≤ c && c ≤ 'f') || ('A' ≤ c && c ≤ 'F')

/-- The numeric value of a hex digit (`net/url.unhex`). -/
def hexVal (c : Char) : Nat :=
  if c.isDigit then c.toNat - 48
  else if 'a' ≤ c && c ≤ 'f' then c.toNat - 87
  else if 'A' ≤ c && c ≤ 'F' then c.toNat - 55
  else 0

/-- Percent-escape well-formedness, the only failure mode of `net/url.unescape`
in the path, userinfo and fragment modes: every `%` must be followed by two
hex digits. -/
def escapesOk : List Char → Bool
  | [] => true
  | '%' :: a :: b :: rest => isHexDigit a && isHexDigit b && escapesOk rest
  | '%' :: _ => false
  | _ :: rest => escapesOk rest

/-- The characters before the first occurrence of `c` (the whole list when
`c` is absent) — `strings.Cut`'s left half. -/
def untilFirst (c : Char) : List Char → List Char
  | [] => []
  | x :: xs => if x == c then [] else x :: untilFirst c xs

/-- The characters after the first occurrence of `c` (empty when `c` is
absent) — `strings.Cut`'s right half. -/
def afterFirst (c : Char) : List Char → List Char
  | [] => []
  | x :: xs => if x == c then xs else afterFirst c xs

/-- Split at the last occurrence of `c`: `some (before, after)`, or `none`
when `c` is absent — `strings.LastIndex`. -/
def splitAtLast (c : Char) : List Char → Option (List Char × List Char)
  | [] => none
  | x :: xs =>
    match splitAtLast c xs with
    | some (pre, post) => some (x :: pre, post)
    | none => if x == c then some ([], xs) else none

/-- Model of `net/url.getScheme`: scan for a `:`; a leading `:` is the
`"missing protocol scheme"` error; a scheme must start with a letter and
continue with letters, digits, `+`, `-` or `.`; any other character before
the colon means the URL has no scheme and is left whole.  `acc` holds the
scheme characters scanned so far, reversed; `none` means no scheme. -/
def getSchemeGo (acc : List Char) : List Char → Except Unit (Option (List Char × List Char))
  | [] => .ok none
  | c :: rest =>
    if c == ':' then
      if acc.isEmpty then .error () else .ok (some (acc.reverse, rest))
    else if c.isAlpha then getSchemeGo (c :: acc) rest
    else if c.isDigit || c == '+' || c == '-' || c == '.' then
      if acc.isEmpty then .ok none else getSchemeGo (c :: acc) rest
    else .ok none

/-- Model of `net/url.validOptionalPort`: empty, or a `:` followed by digits
only. -/
def validOptionalPort : List Char → Bool
  | [] => true
  | ':' :: ds => ds.all (fun c => c.isDigit)
  | _ => false

/-- A byte `net/url.shouldEscape` leaves unescaped in a host (mode
`encodeHost`): alphanumerics, the unreserved marks, the RFC 3986
sub-delimiters, and `: [ ] < > "`; bytes at or above 0x80 are passed
through. -/
def isHostChar (c : Char) : Bool :=
  c.isAlphanum || decide (0x80 ≤ c.toNat) ||
  c == '-' || c == '.' || c == '_' || c == '~' ||
  c == '!' || c == '$' || c == '&' || c == Char.ofNat 39 ||
  c == '(' || c == ')' || c == '*' || c == '+' || c == ',' || c == ';' || c == '=' ||
  c == ':' || c == '[' || c == ']' || c == '<' || c == '>' || c == Char.ofNat 34

/-- Model of `net/url.unescape` in mode `encodeHost` on a host string: every
`%` needs two hex digits and may only encode a byte at or above 0x80 — except
the literal `%25` — and every plain byte below 0x80 must be a legal host
byte. -/
def hostUnescapeOk : List Char → Bool
  | [] => true
  | '%' :: a :: b :: rest =>
    isHexDigit a && isHexDigit b && (decide (8 ≤ hexVal a) || (a == '2' && b == '5'))
      && hostUnescapeOk rest
  | '%' :: _ => false
  | c :: rest => isHostChar c && hostUnescapeOk rest

/-- A byte `net/url.validUserinfo` accepts: alphanumerics and
`- . _ : ~ ! $ & ' ( ) * + , ; = % @`; anything else (including non-ASCII)
is the `"net/url: invalid userinfo"` error. -/
def isUserinfoChar (c : Char) : Bool :=
  c.isAlphanum ||
  c == '-' || c == '.' || c == '_' || c == ':' || c == '~' ||
  c == '!' || c == '$' || c == '&' || c == Char.ofNat 39 ||
  c == '(' || c == ')' || c == '*' || c == '+' || c == ',' || c == ';' ||
  c == '=' || c == '%' || c == '@'

/-- Model of `net/url.parseHost`'s acceptance: a bracketed host needs a
closing `]` followed by a valid optional port; otherwise everything after the
last `:` must be a valid port; and the whole host string must pass the
`encodeHost` unescape check.  (The `%25` zone-identifier split inside a
bracketed host is approximated by these same host rules.) -/
def hostOk (h : List Char) : Bool :=
  (match h with
   | '[' :: _ =>
     match splitAtLast ']' h with
     | none => false
     | some (_, colonPort) => validOptionalPort colonPort
   | _ =>
     match splitAtLast ':' h with
     | none => true
     | some (_, port) => port.all (fun c => c.isDigit))
  && hostUnescapeOk h

/-- Model of `net/url.parseAuthority`'s acceptance: split at the last `@`
into userinfo and host; the host must parse, the userinfo (when present)
must contain only legal userinfo bytes and well-formed escapes. -/
def authorityOk (a : List Char) : Bool :=
  match splitAtLast '@' a with
  | none => hostOk a
  | some (userinfo, host) =>
    hostOk host && userinfo.all isUserinfoChar && escapesOk userinfo

/-- Model of the acceptance of `net/url.parse(u, viaRequest := false)` on the
fragment-free part of a URL, following the source's control flow: scheme
split, query cut (the raw query is never validated), the opaque early return
for a rootless path with a scheme (accepted with no further checks), the
colon-in-first-path-segment error for scheme-less relative URLs, the
authority split for `//`-prefixed rests, and the escape check `setPath`
performs on the path. -/
def parseURLOk (u : List Char) : Bool :=
  match getSchemeGo [] u with
  | .error _ => false
  | .ok res =>
    let scheme := match res with | none => ([] : List Char) | some (s, _) => s
    let rest0 := match res with | none => u | some (_, r) => r
    let rest := untilFirst '?' rest0
    if !scheme.isEmpty && !(rest.head? == some '/') then true
    else if scheme.isEmpty && !(rest.head? == some '/')
        && (untilFirst '/' rest).contains ':' then false
    else
      match rest with
      | '/' :: '/' :: after =>
        if scheme.isEmpty && after.head? == some '/' then escapesOk rest
        else
          authorityOk (untilFirst '/' after)
            && escapesOk (after.dropWhile fun c => c != '/')
      | _ => escapesOk rest

/-- Model of the acceptance of `net/url.Parse`: the fragment is cut at the
first `#` and must have well-formed escapes; the part before it must be free
of control bytes (`stringContainsCTLByte` runs inside `parse`, after the
fragment cut) and must parse.  The model of `http.NewRequest` below and the
claim-side validity `amendedValidPayload` use this same predicate, so the C3
theorem does not depend on the model agreeing with Go's `url.Parse` on every
corner of the URL grammar (zone identifiers in bracketed hosts are the one
approximated corner). -/
def urlParseOk (s : String) : Bool :=
  let cs := s.toList
  let u := untilFirst '#' cs
  if u.any isCtlChar then false
  else parseURLOk u && escapesOk (afterFirst '#' cs)

/-- The request prepared by the job builder: method, URL text, header list and
optional body (the raw JSON value passed through from the message). -/
structure HttpRequest where
  method : String
  url : String
  headers : List (String × String)
  body : Option Json

/-- Model of `net/http.NewRequest` for the aspects this program exercises: an
empty method defaults to `"GET"`, an invalid method token is rejected with
`"net/http: invalid method"`, a URL rejected by `url.Parse` (modelled by
`urlParseOk`) is an error, and the body reader is attached verbatim. -/
def newRequest (method uri : String) (body : Option Json) : Except RequestErr HttpRequest :=
  let m := if method = "" then "GET" else method
  if validMethodB m then
    if urlParseOk uri then .ok { method := m, url := uri, headers := [], body := body }
    else .error (.invalidURL uri)
  else .error (.invalidMethod m)

/-- Whether a character is valid in a MIME header key
(`textproto.validHeaderFieldByte`) — the same token table. -/
def validHeaderFieldChar (c : Char) : Bool := isTokenChar c

/-- The case-transformation pass of `textproto.canonicalMIMEHeaderKey`:
uppercase the first letter and each letter following a hyphen, lowercase the
rest.  The `upper` flag says whether the next letter starts a word. -/
def canonicalKeyAux : Bool → List Char → List Char
  | _, [] => []
  | upper, c :: cs =>
    let c2 :=
      if upper then (if 'a' ≤ c && c ≤ 'z' then Char.ofNat (c.toNat - 32) else c)
      else (if 'A' ≤ c && c ≤ 'Z' then Char.ofNat (c.toNat + 32) else c)
    c2 :: canonicalKeyAux (c == '-') cs

/-- Model of `textproto.CanonicalMIMEHeaderKey`: a key containing an invalid
header byte is returned unchanged, otherwise it is canonicalised. -/
def canonicalMIMEHeaderKey (s : String) : String :=
  if s.toList.all validHeaderFieldChar then String.mk (canonicalKeyAux true s.toList)
  else s

/-- Model of `http.Header.Set`: replace the entry under the canonical form of
the key with the single given value. -/
def headerSet (h : List (String × String)) (k v : String) : List (String × String) :=
  let ck := canonicalMIMEHeaderKey k
  (h.filter fun p => p.1 != ck) ++ [(ck, v)]

/-- The loop body of `buildHeaders`: a string value is set as-is, a
`json.Number` is set via its `String()` (its original textual token), and any
other value hits the default branch `"invalid header, key=%v, value=%v"`. -/
def buildHeadersGo : List (String × Json) → List (String × String) →
    Except RequestErr (List (String × String))
  | [], acc => .ok acc
  | (k, v) :: rest, acc =>
    match v with
    | .str s => buildHeadersGo rest (headerSet acc k s)
    | .num t => buildHeadersGo rest (headerSet acc k t)
    | _ => .error (.invalidHeader k)

/-- Model of `buildHeaders`: a `nil` headers map yields `(nil, nil)`; otherwise
a fresh header map is filled from the message's header fields. -/
def buildHeaders : Option (List (String × Json)) →
    Except RequestErr (Option (List (String × String)))
  | none => .ok none
  | some fields =>
    match buildHeadersGo fields [] with
    | .error e => .error e
    | .ok hs => .ok (some hs)

/-- Model of `buildRequest`: attach the raw body (a reader over the
`RawMessage` bytes, absent when `Body == nil`), create the request, then
build the headers and, when the map is non-nil, install it on the request. -/
def buildRequest (msg : HttpMessage) : Except RequestErr HttpRequest :=
  match newRequest msg.method msg.uri msg.body with
  | .error e => .error e
  | .ok req =>
    match buildHeaders msg.headers with
    | .error e => .error e
    | .ok none => .ok req
    | .ok (some hs) => .ok { req with headers := hs }

/-- The job built by `HTTPJobBuilder.BuildJob`: it holds the prepared request.
The shared `http.Client` handle is the same for every job built by one
builder and carries no per-job data, so it is omitted from the model. -/
structure HTTPJob where
  req : HttpRequest

/-- Model of `HTTPJobBuilder.BuildJob`: take a pooled scratch message (in an
arbitrary previous state `pooled`), reset it, parse the payload into it, then
build the request.  Errors are wrapped at the same two sites as in the
source. -/
def buildJob (pooled : HttpMessage) (data : Option Json) : Except BuildErr HTTPJob :=
  match (pooled.reset).parse data with
  | .error e => .error (.parse e)
  | .ok msg =>
    match buildRequest msg with
    | .error e => .error (.request e)
    | .ok req => .ok { req := req }

/-- Whether an `Except` result is a success. -/
def okB {ε α : Type} : Except ε α → Bool
  | .ok _ => true
  | .error _ => false

/-- Whether a JSON value is a string or a number — the two header value shapes
`buildHeaders` accepts. -/
def stringOrNum : Json → Bool
  | .str _ => true
  | .num _ => true
  | _ => false

/-- Whether every header value of a decoded message is a string or a number
(`nil` headers are trivially fine). -/
def headersOk : Option (List (String × Json)) → Bool
  | none => true
  | some fields => fields.all fun kv => stringOrNum kv.2

/-- Decoding a JSON value into a fresh message, as an `Option` — the
claim-side notion of a payload that is "valid JSON" for the schema. -/
def decodeMsg (j : Json) : Option HttpMessage :=
  match decodeInto emptyMessage j with
  | .ok m => some m
  | .error _ => none

/-- The claim's validity condition for `BuildJob`, exactly as stated: the
payload is valid JSON (for the schema), with non-empty method, non-empty uri,
and only string-or-number header values. -/
def claimValidPayload (data : Option Json) : Bool :=
  match data with
  | none => false
  | some j =>
    match decodeMsg j with
    | none => false
    | some m => (m.method != "") && (m.uri != "") && headersOk m.headers

/-- The amended validity condition: as the claim states it, plus the two
requirements forced by `net/http.NewRequest` — the method must be a valid
HTTP token and the uri must be accepted by the URL parser (the same
`urlParseOk` that models the parse step inside `newRequest`). -/
def amendedValidPayload (data : Option Json) : Bool :=
  match data with
  | none => false
  | some j =>
    match decodeMsg j with
    | none => false
    | some m =>
      (m.method != "") && validMethodB m.method && (m.uri != "") && urlParseOk m.uri
        && headersOk m.headers

/-- Model of the prefetch-count handling in `consumer.New`: a configured count
of 0 is replaced by the historical default 3 before `ch.Qos` is called; any
other value is passed to `ch.Qos` unchanged.  (Go `int`, hence `Int`.) -/
def effectivePrefetchCount (count : Int) : Int :=
  if count = 0 then 3 else count

/-- Claim C9: a prefetch count of 0 (unset) becomes 3 on the broker channel;
every non-zero configured count is applied unchanged. -/
theorem prefetch_default_applied :
    effectivePrefetchCount 0 = 3 ∧ ∀ c : Int, c ≠ 0 → effectivePrefetchCount c = c := by
  constructor
  · rfl
  · intro c hc
    simp [effectivePrefetchCount, hc]

theorem prefetch_default_applied_witness :
    effectivePrefetchCount 0 = 3 ∧ effectivePrefetchCount 5 = 5 :=
  ⟨prefetch_default_applied.1, prefetch_default_applied.2 5 (by decide)⟩

/-- Claim C7: `buildRequest` passes the optional body field through verbatim —
whenever it returns a request, that request's body is exactly the message's
body field (the raw `json.RawMessage` value, no re-encoding), and in
particular the request has no body when the field is absent. -/
theorem buildRequest_body_passthrough (msg : HttpMessage) (req : HttpRequest)
    (h : buildRequest msg = Except.ok req) : req.body = msg.body := by
  unfold buildRequest at h
  cases hn : newRequest msg.method msg.uri msg.body with
  | error e => rw [hn] at h; cases h
  | ok req0 =>
    rw [hn] at h
    have hb : req0.body = msg.body := by
      unfold newRequest at hn
      dsimp only at hn
      by_cases hv : validMethodB (if msg.method = "" then "GET" else msg.method)
      · rw [if_pos hv] at hn
        by_cases hu : urlParseOk msg.uri = true
        · rw [if_pos hu] at hn; cases hn; rfl
        · rw [if_neg hu] at hn; cases hn
      · rw [if_neg hv] at hn; cases hn
    cases hh : buildHeaders msg.headers with
    | error e => rw [hh] at h; cases h
    | ok o =>
      rw [hh] at h
      cases o with
      | none => cases h; exact hb
      | some hs => cases h; exact hb

theorem buildRequest_body_passthrough_witness :
    ({ method := "POST", url := "http://x", headers := [], body := some (Json.str "b") } :
        HttpRequest).body
      = (⟨"http://x", none, some (Json.str "b"), "POST"⟩ : HttpMessage).body :=
  buildRequest_body_passthrough ⟨"http://x", none, some (Json.str "b"), "POST"⟩ _ rfl

/-- Claim C8: `httpMessage.reset` clears every field, so the result of
`BuildJob` depends only on the payload of that call — the state a pooled
scratch message was left in by any previous call never influences the job or
error produced for the current payload. -/
theorem buildJob_payload_determined :
    (∀ msg : HttpMessage, msg.reset = emptyMessage)
    ∧ ∀ (s1 s2 : HttpMessage) (data : Option Json), buildJob s1 data = buildJob s2 data := by
  constructor
  · intro msg; rfl
  · intro s1 s2 data; rfl

theorem buildHeadersGo_isOk (fs : List (String × Json)) (acc : List (String × String)) :
    okB (buildHeadersGo fs acc) = fs.all (fun kv => stringOrNum kv.2) := by
  induction fs generalizing acc with
  | nil => rfl
  | cons kv rest ih =>
    obtain ⟨k, v⟩ := kv
    cases v with
    | str s => simpa [buildHeadersGo, stringOrNum] using ih (headerSet acc k s)
    | num t => simpa [buildHeadersGo, stringOrNum] using ih (headerSet acc k t)
    | null => simp [buildHeadersGo, stringOrNum, okB]
    | bool b => simp [buildHeadersGo, stringOrNum, okB]
    | arr elems => simp [buildHeadersGo, stringOrNum, okB]
    | obj fields => simp [buildHeadersGo, stringOrNum, okB]

theorem buildHeadersGo_error (fs : List (String × Json)) (acc : List (String × String))
    (h : fs.all (fun kv => stringOrNum kv.2) = false) :
    ∃ k, buildHeadersGo fs acc = .error (.invalidHeader k) := by
  induction fs generalizing acc with
  | nil => simp at h
  | cons kv rest ih =>
    obtain ⟨k, v⟩ := kv
    cases v with
    | str s =>
      simp only [List.all_cons, stringOrNum, Bool.true_and] at h
      exact ih (headerSet acc k s) h
    | num t =>
      simp only [List.all_cons, stringOrNum, Bool.true_and] at h
      exact ih (headerSet acc k t) h
    | null => exact ⟨k, rfl⟩
    | bool b => exact ⟨k, rfl⟩
    | arr elems => exact ⟨k, rfl⟩
    | obj fields => exact ⟨k, rfl⟩

theorem buildRequest_eq_of_ne (m : HttpMessage) (hm : m.method ≠ "")
    (hv : validMethodB m.method = true) (hu : urlParseOk m.uri = true) :
    buildRequest m =
      match buildHeaders m.headers with
      | .error e => .error e
      | .ok none => .ok { method := m.method, url := m.uri, headers := [], body := m.body }
      | .ok (some hs) =>
          .ok { method := m.method, url := m.uri, headers := hs, body := m.body } := by
  unfold buildRequest newRequest
  dsimp only
  rw [if_neg hm, if_pos hv, if_pos hu]

theorem buildRequest_invalid_method (m : HttpMessage) (hm : m.method ≠ "")
    (hv : validMethodB m.method = false) :
    buildRequest m = .error (.invalidMethod m.method) := by
  unfold buildRequest newRequest
  dsimp only
  rw [if_neg hm, hv]
  rfl

theorem buildRequest_invalid_url (m : HttpMessage) (hm : m.method ≠ "")
    (hv : validMethodB m.method = true) (hu : urlParseOk m.uri = false) :
    buildRequest m = .error (.invalidURL m.uri) := by
  unfold buildRequest newRequest
  dsimp only
  rw [if_neg hm, if_pos hv, hu]
  rfl

theorem buildJob_decode_error (s : HttpMessage) (j : Json) (e : DecodeErr)
    (hd : decodeInto emptyMessage j = .error e) :
    buildJob s (some j) = .error (.parse (.decode e)) := by
  simp only [buildJob, show HttpMessage.reset s = emptyMessage from rfl,
    HttpMessage.parse, hd]

theorem buildJob_ok_case (s : HttpMessage) (j : Json) (m : HttpMessage)
    (hd : decodeInto emptyMessage j = .ok m) (hm : m.method ≠ "") (hu : m.uri ≠ "") :
    buildJob s (some j) =
      match buildRequest m with
      | .error e => .error (.request e)
      | .ok req => .ok { req := req } := by
  simp only [buildJob, show HttpMessage.reset s = emptyMessage from rfl,
    HttpMessage.parse, hd]
  rw [if_neg hm, if_neg hu]

theorem buildJob_ok_iff_aux (s : HttpMessage) (data : Option Json) :
    okB (buildJob s data) = amendedValidPayload data := by
  cases data with
  | none => rfl
  | some j =>
    cases hd : decodeInto emptyMessage j with
    | error e =>
      rw [buildJob_decode_error s j e hd]
      simp [amendedValidPayload, decodeMsg, hd, okB]
    | ok m =>
      by_cases hm : m.method = ""
      · have hb : buildJob s (some j) = .error (.parse .emptyMethod) := by
          simp only [buildJob, show HttpMessage.reset s = emptyMessage from rfl,
            HttpMessage.parse, hd]
          rw [if_pos hm]
        rw [hb]
        simp [amendedValidPayload, decodeMsg, hd, hm, okB]
      · by_cases hu : m.uri = ""
        · have hb : buildJob s (some j) = .error (.parse .emptyURI) := by
            simp only [buildJob, show HttpMessage.reset s = emptyMessage from rfl,
              HttpMessage.parse, hd]
            rw [if_neg hm, if_pos hu]
          rw [hb]
          simp [amendedValidPayload, decodeMsg, hd, hm, hu, okB]
        · rw [buildJob_ok_case s j m hd hm hu]
          cases hv : validMethodB m.method with
          | false =>
            rw [buildRequest_invalid_method m hm hv]
            simp [amendedValidPayload, decodeMsg, hd, hm, hu, hv, okB]
          | true =>
            cases hurl : urlParseOk m.uri with
            | false =>
              rw [buildRequest_invalid_url m hm hv hurl]
              simp [amendedValidPayload, decodeMsg, hd, hm, hu, hv, hurl, okB]
            | true =>
              rw [buildRequest_eq_of_ne m hm hv hurl]
              cases hhead : m.headers with
              | none =>
                simp [amendedValidPayload, decodeMsg, hd, hm, hu, hv, hurl, hhead,
                  buildHeaders, headersOk, okB]
              | some fs =>
                have hall := buildHeadersGo_isOk fs []
                cases hg : buildHeadersGo fs [] with
                | error e2 =>
                  rw [hg] at hall
                  simp [amendedValidPayload, decodeMsg, hd, hm, hu, hv, hurl, hhead,
                    buildHeaders, hg, headersOk, ← hall, okB]
                | ok hs =>
                  rw [hg] at hall
                  simp [amendedValidPayload, decodeMsg, hd, hm, hu, hv, hurl, hhead,
                    buildHeaders, hg, headersOk, ← hall, okB]

/-- Claim C3 (amended): `BuildJob` returns an error and no job exactly when
the payload is invalid, where invalid additionally includes a method that is
not a valid HTTP token and a uri rejected by the URL parser (both checks
performed inside `net/http.NewRequest`).  Specifically: success iff the
payload is valid JSON for the schema with non-empty token-valid method,
non-empty uri accepted by the URL parser, and only string-or-number header
values; a payload that is not valid JSON yields the decode error; a
well-formed payload with empty method (resp. empty uri) yields the
corresponding validation error; and a bad header value yields a header error
naming the offending key. -/
theorem buildJob_amended_spec :
    (∀ (s : HttpMessage) (data : Option Json), okB (buildJob s data) = amendedValidPayload data)
    ∧ (∀ s : HttpMessage, buildJob s none = .error (.parse .notJson))
    ∧ (∀ (s : HttpMessage) (j : Json) (m : HttpMessage),
        decodeInto emptyMessage j = .ok m → m.method = "" →
        buildJob s (some j) = .error (.parse .emptyMethod))
    ∧ (∀ (s : HttpMessage) (j : Json) (m : HttpMessage),
        decodeInto emptyMessage j = .ok m → m.method ≠ "" → m.uri = "" →
        buildJob s (some j) = .error (.parse .emptyURI))
    ∧ (∀ (s : HttpMessage) (j : Json) (m : HttpMessage),
        decodeInto emptyMessage j = .ok m → m.method ≠ "" → m.uri ≠ "" →
        validMethodB m.method = true → urlParseOk m.uri = true →
        headersOk m.headers = false →
        ∃ k, buildJob s (some j) = .error (.request (.invalidHeader k))) := by
  have hres : ∀ s : HttpMessage, HttpMessage.reset s = emptyMessage := fun s => rfl
  refine ⟨buildJob_ok_iff_aux, fun s => rfl, ?_, ?_, ?_⟩
  · intro s j m hd hm
    simp only [buildJob, hres s, HttpMessage.parse, hd]
    rw [if_pos hm]
  · intro s j m hd hm hu
    simp only [buildJob, hres s, HttpMessage.parse, hd]
    rw [if_neg hm, if_pos hu]
  · intro s j m hd hm hu hv hurl hh
    cases hhead : m.headers with
    | none =>
      rw [hhead] at hh
      simp [headersOk] at hh
    | some fs =>
      rw [hhead] at hh
      unfold headersOk at hh
      obtain ⟨k, hk⟩ := buildHeadersGo_error fs [] hh
      refine ⟨k, ?_⟩
      rw [buildJob_ok_case s j m hd hm hu, buildRequest_eq_of_ne m hm hv hurl, hhead]
      simp only [buildHeaders]
      rw [hk]

/-- The payload `\x7b"request_params":\x7b"method":"GET IT","uri":"http://x"\x7d\x7d`:
valid JSON, non-empty method, non-empty uri, no headers. -/
def methodCexPayload : Json :=
  .obj [("request_params", .obj [("method", .str "GET IT"), ("uri", .str "http://x")])]

/-- Counterexample to claim C3 as stated: this payload is valid JSON with
non-empty method, non-empty uri and no header values at all, yet `BuildJob`
returns an error and no job, because `net/http.NewRequest` rejects the
method `"GET IT"` (a space is not an HTTP token character). -/
theorem buildJob_claim_counterexample :
    claimValidPayload (some methodCexPayload) = true
    ∧ okB (buildJob emptyMessage (some methodCexPayload)) = false := by
  constructor
  · rfl
  · rfl

theorem buildJob_amended_spec_witness :
    buildJob emptyMessage
        (some (.obj [("request_params",
          .obj [("method", .str ""), ("uri", .str "http://x")])]))
      = .error (.parse .emptyMethod) :=
  buildJob_amended_spec.2.2.1 emptyMessage
    (.obj [("request_params", .obj [("method", .str ""), ("uri", .str "http://x")])])
    ⟨"http://x", none, none, ""⟩ rfl rfl

/-- The URL-parse error path is live in the model: the uri `"http://x/%zz"`
(an invalid percent-escape in the path) is rejected by `urlParseOk` exactly
as `url.Parse` rejects it with `invalid URL escape "%zz"`, so `BuildJob`
fails on this payload although it is valid JSON with a non-empty token-valid
method and a non-empty uri. -/
theorem buildJob_rejects_bad_escape :
    urlParseOk "http://x/%zz" = false
    ∧ buildJob emptyMessage
        (some (.obj [("request_params",
          .obj [("method", .str "GET"), ("uri", .str "http://x/%zz")])]))
      = .error (.request (.invalidURL "http://x/%zz")) := by
  constructor
  · rfl
  · rfl

/-- The text `buildHeaders` writes for a header value: the string itself, or a
number's original token via `json.Number.String()`. -/
def headerText : Json → String
  | .str s => s
  | .num t => t
  | _ => ""

theorem buildHeadersGo_preserves :
    ∀ (fs : List (String × Json)) (acc hs : List (String × String)),
    buildHeadersGo fs acc = .ok hs →
    ∀ (ck val : String), (ck, val) ∈ acc →
    ck ∉ fs.map (fun kv => canonicalMIMEHeaderKey kv.1) →
    (ck, val) ∈ hs := by
  intro fs
  induction fs with
  | nil =>
    intro acc hs heq ck val hmem hnot
    cases heq
    exact hmem
  | cons kv rest ih =>
    intro acc hs heq ck val hmem hnot
    obtain ⟨k, v⟩ := kv
    simp only [List.map_cons, List.mem_cons, not_or] at hnot
    obtain ⟨hne, hnot2⟩ := hnot
    cases v with
    | str s =>
      refine ih (headerSet acc k s) hs heq ck val ?_ hnot2
      unfold headerSet
      simp only [List.mem_append, List.mem_filter]
      exact Or.inl ⟨hmem, bne_iff_ne.mpr hne⟩
    | num t =>
      refine ih (headerSet acc k t) hs heq ck val ?_ hnot2
      unfold headerSet
      simp only [List.mem_append, List.mem_filter]
      exact Or.inl ⟨hmem, bne_iff_ne.mpr hne⟩
    | null => cases heq
    | bool b => cases heq
    | arr elems => cases heq
    | obj fields => cases heq

theorem buildHeadersGo_roundtrip :
    ∀ (fs : List (String × Json)) (acc hs : List (String × String)),
    buildHeadersGo fs acc = .ok hs →
    (fs.map (fun kv => canonicalMIMEHeaderKey kv.1)).Nodup →
    ∀ (k : String) (v : Json), (k, v) ∈ fs →
    (canonicalMIMEHeaderKey k, headerText v) ∈ hs := by
  intro fs
  induction fs with
  | nil =>
    intro acc hs heq hnd k v hmem
    cases hmem
  | cons kv rest ih =>
    intro acc hs heq hnd k v hmem
    obtain ⟨k0, v0⟩ := kv
    simp only [List.map_cons, List.nodup_cons] at hnd
    obtain ⟨hk0, hndr⟩ := hnd
    rcases List.mem_cons.mp hmem with heqkv | hmemr
    · cases heqkv
      cases v with
      | str s =>
        refine buildHeadersGo_preserves rest (headerSet acc k s) hs heq
          (canonicalMIMEHeaderKey k) s ?_ hk0
        unfold headerSet
        simp
      | num t =>
        refine buildHeadersGo_preserves rest (headerSet acc k t) hs heq
          (canonicalMIMEHeaderKey k) t ?_ hk0
        unfold headerSet
        simp
      | null => cases heq
      | bool b => cases heq
      | arr elems => cases heq
      | obj fields => cases heq
    · cases v0 with
      | str s => exact ih (headerSet acc k0 s) hs heq hndr k v hmemr
      | num t => exact ih (headerSet acc k0 t) hs heq hndr k v hmemr
      | null => cases heq
      | bool b => cases heq
      | arr elems => cases heq
      | obj fields => cases heq

theorem buildHeaders_mem_of_ok (fs : List (String × Json)) (hs : List (String × String))
    (heq : buildHeaders (some fs) = .ok (some hs))
    (hnd : (fs.map (fun kv => canonicalMIMEHeaderKey kv.1)).Nodup)
    (k : String) (v : Json) (hmem : (k, v) ∈ fs) :
    (canonicalMIMEHeaderKey k, headerText v) ∈ hs := by
  have hgo : buildHeadersGo fs [] = .ok hs := by
    simp only [buildHeaders] at heq
    cases hg : buildHeadersGo fs [] with
    | error e => rw [hg] at heq; cases heq
    | ok hs2 => rw [hg] at heq; cases heq; rfl
  exact buildHeadersGo_roundtrip fs [] hs hgo hnd k v hmem

/-- Claim C6 (amended): for every headers object that maps keys to strings or
JSON numbers — provided no two keys share the same canonical header-key form
— the built request headers contain each value in its original textual form
under the canonical key: a string as-is, a number as its original token
(never re-rounded), since the decoder kept numbers as textual `json.Number`
tokens. -/
theorem buildHeaders_preserves_text (fs : List (String × Json))
    (hok : fs.all (fun kv => stringOrNum kv.2) = true)
    (hnd : (fs.map (fun kv => canonicalMIMEHeaderKey kv.1)).Nodup) :
    ∃ hs, buildHeaders (some fs) = .ok (some hs)
      ∧ ∀ (k : String) (v : Json), (k, v) ∈ fs →
          (canonicalMIMEHeaderKey k, headerText v) ∈ hs := by
  have hall := buildHeadersGo_isOk fs []
  rw [hok] at hall
  cases hg : buildHeadersGo fs [] with
  | error e =>
    rw [hg] at hall
    cases hall
  | ok hs =>
    refine ⟨hs, ?_, ?_⟩
    · simp only [buildHeaders, hg]
    · exact buildHeadersGo_roundtrip fs [] hs hg hnd

/-- Counterexample to claim C6 as stated: the claim quantifies over every
headers object with string-or-number values, but two distinct keys with the
same canonical form collide in `Header.Set` — here `x-a` and `X-A` both
canonicalise to `X-A`, the second `Set` replaces the first, and the value
`"1"` is absent from the built headers, so the headers do not contain each
value. -/
theorem buildHeaders_claim_counterexample :
    buildHeaders (some [("x-a", Json.str "1"), ("X-A", Json.str "2")])
      = .ok (some [("X-A", "2")])
    ∧ [(("X-A" : String), ("2" : String))].contains ("X-A", "1") = false := ⟨rfl, rfl⟩

/-- The header fields of the spec's example payload
`"headers": (x-a maps to "1", x-b maps to 1.45)`. -/
def demoHeaderFields : List (String × Json) := [("x-a", .str "1"), ("x-b", .num "1.45")]

theorem buildHeaders_preserves_text_witness :
    buildHeaders (some demoHeaderFields) = .ok (some [("X-A", "1"), ("X-B", "1.45")])
    ∧ ("X-A", "1") ∈ [("X-A", "1"), ("X-B", "1.45")]
    ∧ ("X-B", "1.45") ∈ [("X-A", "1"), ("X-B", "1.45")] := by
  obtain ⟨hs, heq, hmem⟩ := buildHeaders_preserves_text demoHeaderFields (by decide) (by decide)
  have hcomp : buildHeaders (some demoHeaderFields)
      = .ok (some [("X-A", "1"), ("X-B", "1.45")]) := rfl
  have hhs : hs = [("X-A", "1"), ("X-B", "1.45")] := by
    rw [hcomp] at heq
    cases heq
    rfl
  subst hhs
  have h1 := hmem "x-a" (Json.str "1") (by simp [demoHeaderFields])
  have h2 := hmem "x-b" (Json.num "1.45") (by simp [demoHeaderFields])
  have e1 : canonicalMIMEHeaderKey "x-a" = "X-A" := by decide
  have e2 : canonicalMIMEHeaderKey "x-b" = "X-B" := by decide
  rw [e1] at h1
  rw [e2] at h2
  exact ⟨hcomp, h1, h2⟩

/-- One observable action the pool-variant consume loop body performs for a
delivery: the optional debug log, the build-error log, the `pool.AddJob` call
(with the job built, or with the nil job left by a failed build), or an
`Ack` call on the delivery (which the pool-variant body never performs). -/
inductive Action where
  | debugLog
  | logBuildError (e : BuildErr)
  | addJob (job : Option HTTPJob)
  | ack

/-- The `autoAck` argument the pool-variant Consumer passes to
`Channel.Consume` (third argument, `pool.go` line 235): `true`, so the broker
acknowledges each delivery at delivery time. -/
def consumeAutoAck : Bool := true

/-- Model of the per-delivery body of the pool-variant `Consumer.Consume`
loop (`pool.go` lines 258-268): optionally debug-log the payload; call
`BuildJob` (its result does not depend on the pooled scratch state, so the
builder is modelled at the empty message); if it failed, log the error; then
call `pool.AddJob(job)` unconditionally — on a failed build `job` is the nil
interface, modelled as `none`.  The body contains no `Ack` call. -/
def consumeLoopBody (debugConfigured : Bool) (payload : Option Json) : List Action :=
  (if debugConfigured then [Action.debugLog] else []) ++
  match buildJob emptyMessage payload with
  | .ok job => [Action.addJob (some job)]
  | .error e => [Action.logBuildError e, Action.addJob none]

/-- Claim C1 fails on the pool-variant code: the consumer registers with
`autoAck = true`, and its per-delivery loop body performs zero `Ack` calls —
so the broker-side acknowledgment happens at delivery time, before the job
is built, enqueued or executed, not after the job's execution returns. -/
theorem poolConsume_autoAck_no_ack_after_execution :
    consumeAutoAck = true
    ∧ ∀ (dbg : Bool) (payload : Option Json),
        (consumeLoopBody dbg payload).countP (fun a => a matches Action.ack) = 0 := by
  refine ⟨rfl, ?_⟩
  intro dbg payload
  unfold consumeLoopBody
  cases buildJob emptyMessage payload <;> cases dbg <;>
    simp [List.countP_append, List.countP_cons, List.countP_nil]

/-- Claim C2 fails on the pool-variant code: for a delivery whose payload is
not valid JSON, the loop body logs the build error and then still calls
`pool.AddJob` with the nil job (the error branch lacks a `continue`), so
something is enqueued into the pool for that delivery. -/
theorem consume_enqueues_nil_job :
    consumeLoopBody false none
      = [Action.logBuildError (.parse .notJson), Action.addJob none] := rfl

/-- One observable event of the fan-out variant `Consumer.handleMsg` (the
older consumer that registers with `autoAck = false` and calls `d.Ack(true)`
itself). -/
inductive MsgEvent where
  | debugLog
  | handleMessage
  | logHandleError
  | ackDelivery
deriving DecidableEq

/-- Model of the fan-out variant `Consumer.handleMsg`: debug-log when
configured, run the handler synchronously to completion, log a handler error
if it failed, then call `d.Ack(true)` — always, after the handler has
returned. -/
def handleMsgEvents (debugConfigured handlerFails : Bool) : List MsgEvent :=
  (if debugConfigured then [MsgEvent.debugLog] else []) ++
  [MsgEvent.handleMessage] ++
  (if handlerFails then [MsgEvent.logHandleError] else []) ++
  [MsgEvent.ackDelivery]

/-- In the fan-out variant, each delivery gets exactly one `Ack` call, and it
comes after the handler has returned (it is the last event), whether or not
the handler failed — the behaviour the claim describes, which the pool
variant does not implement. -/
theorem handleMsg_acks_once_after_handler (dbg fails : Bool) :
    (handleMsgEvents dbg fails).countP (fun e => e matches MsgEvent.ackDelivery) = 1
    ∧ (handleMsgEvents dbg fails).getLast? = some MsgEvent.ackDelivery := by
  cases dbg <;> cases fails <;> exact ⟨by decide, by decide⟩

/-- Control-flow phase of the pool-variant `Consumer.Consume` after consumer
registration: processing the (finite) delivery stream, the `pool.WaitAll()`
call, the receive on the local channel `forever`, and the (never reached)
return that would run the deferred `pool.Release`, `Channel.Close` and
`Connection.Close`. -/
inductive CPhase where
  | deliveries (remaining : Nat)
  | waitAll
  | recvForever
  | returned
deriving DecidableEq

/-- One control-flow step of the pool-variant `Consumer.Consume` main
goroutine (`pool.go` lines 258-273): handle one delivery; when the `msgs`
channel is exhausted, `pool.WaitAll()` returns at once because `Consume`
never calls `WaitCount`, so the pool's WaitGroup counter is zero; then
`<-forever` blocks for ever — `forever := make(chan bool)` is local and no
statement in the program sends on it or closes it — modelled as a self-loop.
No step produces `returned`: that is the content of the model, mirroring the
absence of any path past `<-forever` in the source. -/
def consumeStep : CPhase → CPhase
  | .deliveries (n + 1) => .deliveries n
  | .deliveries 0 => .waitAll
  | .waitAll => .recvForever
  | .recvForever => .recvForever
  | .returned => .returned

/-- Iterate `consumeStep`. -/
def consumeRun : Nat → CPhase → CPhase
  | 0, p => p
  | k + 1, p => consumeRun k (consumeStep p)

/-- Whether the deferred cleanup (`pool.Release` and the connection/channel
`Close`) runs in a phase: only on return from `Consume`. -/
def runsDeferredCleanup : CPhase → Bool
  | .returned => true
  | _ => false

theorem consumeRun_add (a b : Nat) (p : CPhase) :
    consumeRun (a + b) p = consumeRun b (consumeRun a p) := by
  induction a generalizing p with
  | zero => rw [Nat.zero_add]; rfl
  | succ a ih =>
    rw [Nat.succ_add]
    exact ih (consumeStep p)

theorem consumeRun_stay (k : Nat) : consumeRun k CPhase.recvForever = CPhase.recvForever := by
  induction k with
  | zero => rfl
  | succ k ih => exact ih

theorem consumeRun_toForever (n : Nat) :
    consumeRun (n + 2) (CPhase.deliveries n) = CPhase.recvForever := by
  induction n with
  | zero => rfl
  | succ n ih => exact ih

theorem consumeRun_live (k : Nat) (p : CPhase) (hp : runsDeferredCleanup p = false) :
    runsDeferredCleanup (consumeRun k p) = false := by
  induction k generalizing p with
  | zero => exact hp
  | succ k ih =>
    refine ih (consumeStep p) ?_
    cases p with
    | deliveries n => cases n <;> rfl
    | waitAll => rfl
    | recvForever => rfl
    | returned => exact absurd hp (by decide)

/-- Claim C10: for any number of deliveries, `Consume` never reaches its
return (so the deferred `pool.Release` and the deferred connection and
channel close never run on the normal path), and once the delivery stream
has ended it sits for ever in the receive on the `forever` channel. -/
theorem consume_never_returns :
    ∀ (n k : Nat),
      runsDeferredCleanup (consumeRun k (CPhase.deliveries n)) = false
      ∧ (n + 2 ≤ k → consumeRun k (CPhase.deliveries n) = CPhase.recvForever) := by
  intro n k
  constructor
  · exact consumeRun_live k (CPhase.deliveries n) rfl
  · intro hk
    obtain ⟨d, rfl⟩ : ∃ d, k = (n + 2) + d := ⟨k - (n + 2), by omega⟩
    rw [consumeRun_add, consumeRun_toForever n, consumeRun_stay]

theorem consume_never_returns_witness :
    runsDeferredCleanup (consumeRun 5 (CPhase.deliveries 1)) = false
    ∧ consumeRun 5 (CPhase.deliveries 1) = CPhase.recvForever :=
  ⟨(consume_never_returns 1 5).1, (consume_never_returns 1 5).2 (by decide)⟩

/-- The state of one worker goroutine (`worker.start`): about to register in
the idle-worker channel (`w.workerPool <- w`); waiting in the `select` for a
job or a stop signal; running a job (`job.Do`); about to send the stop
acknowledgment (`w.stop <- struct{}{}` after receiving stop); or returned. -/
inductive WState where
  | register
  | waiting
  | running (job : Nat)
  | acking
  | stopped
deriving DecidableEq

/-- The control point of the dispatcher goroutine (`dispatcher.dispatch`):
at the `select`; holding a job pulled from the queue and blocking on
`<-d.workerPool`; holding a job and a pulled worker, blocking on the send to
that worker's job channel; in the stop loop after `i` workers have been
stopped, about to pull the next idle worker; having pulled worker `w`,
blocking on the stop send; blocking on that worker's stop acknowledgment;
past the loop, blocking on the final `d.stop <- struct{}{}` back to
`Release`; or returned. -/
inductive DState (W : Nat) where
  | select
  | gotJob (j : Nat)
  | handJob (j : Nat) (w : Fin W)
  | drain (i : Nat)
  | drainSend (i : Nat) (w : Fin W)
  | drainWait (i : Nat) (w : Fin W)
  | finalAck
  | returned
deriving DecidableEq

/-- The caller of `Pool.Release`: about to send on `d.stop`; blocking on the
answering receive `<-d.stop`; or returned from `Release`. -/
inductive RState where
  | callRelease
  | waitAck
  | done
deriving DecidableEq

/-- The whole pool system for `W` workers and a job queue of capacity `Q`:
jobs not yet admitted to the queue (the submission burst), the buffered
`JobQueue` channel, the buffered idle-worker registry channel `workerPool`
(each element a worker that has sent itself), the worker states, the
dispatcher control point and the `Release` caller's state.  Jobs are
identified by numbers; what a job does when executed is irrelevant here. -/
structure Sys (W Q : Nat) where
  arrivals : List Nat
  queue : List Nat
  pool : List (Fin W)
  workers : Fin W → WState
  disp : DState W
  rel : RState

/-- One interleaving step of the pool system.  Buffered channel operations
(`JobQueue`, `workerPool`) block on a full or empty buffer; unbuffered
channel operations (`jobChannel`, `w.stop`, `d.stop`) are joint steps that
require the peer to be at the matching receive or send. -/
inductive Step {W Q : Nat} : Sys W Q → Sys W Q → Prop where
  | arrive (s : Sys W Q) (j : Nat) (rest : List Nat) :
      s.arrivals = j :: rest → s.queue.length < Q →
      Step s { s with arrivals := rest, queue := s.queue ++ [j] }
  | regWorker (s : Sys W Q) (w : Fin W) :
      s.workers w = .register → s.pool.length < W →
      Step s { s with
        pool := s.pool ++ [w],
        workers := Function.update s.workers w .waiting }
  | finish (s : Sys W Q) (w : Fin W) (j : Nat) :
      s.workers w = .running j →
      Step s { s with workers := Function.update s.workers w .register }
  | takeJob (s : Sys W Q) (j : Nat) (rest : List Nat) :
      s.disp = .select → s.queue = j :: rest →
      Step s { s with disp := .gotJob j, queue := rest }
  | takeWorker (s : Sys W Q) (j : Nat) (w : Fin W) (ps : List (Fin W)) :
      s.disp = .gotJob j → s.pool = w :: ps →
      Step s { s with disp := .handJob j w, pool := ps }
  | hand (s : Sys W Q) (j : Nat) (w : Fin W) :
      s.disp = .handJob j w → s.workers w = .waiting →
      Step s { s with
        disp := .select,
        workers := Function.update s.workers w (.running j) }
  | releaseSend (s : Sys W Q) :
      s.rel = .callRelease → s.disp = .select →
      Step s { s with disp := .drain 0, rel := .waitAck }
  | drainPop (s : Sys W Q) (i : Nat) (w : Fin W) (ps : List (Fin W)) :
      s.disp = .drain i → i < W → s.pool = w :: ps →
      Step s { s with disp := .drainSend i w, pool := ps }
  | drainDone (s : Sys W Q) (i : Nat) :
      s.disp = .drain i → ¬ i < W →
      Step s { s with disp := .finalAck }
  | stopSend (s : Sys W Q) (i : Nat) (w : Fin W) :
      s.disp = .drainSend i w → s.workers w = .waiting →
      Step s { s with
        disp := .drainWait i w,
        workers := Function.update s.workers w .acking }
  | stopAck (s : Sys W Q) (i : Nat) (w : Fin W) :
      s.disp = .drainWait i w → s.workers w = .acking →
      Step s { s with
        disp := .drain (i + 1),
        workers := Function.update s.workers w .stopped }
  | finalAckStep (s : Sys W Q) :
      s.disp = .finalAck → s.rel = .waitAck →
      Step s { s with disp := .returned, rel := .done }

/-- Reachability from a start state through `Step`. -/
inductive Reach {W Q : Nat} (s0 : Sys W Q) : Sys W Q → Prop where
  | refl : Reach s0 s0
  | tail {s t : Sys W Q} : Reach s0 s → Step s t → Reach s0 t

/-- The initial system: the submission burst is pending, the queue and the
idle registry are empty, every worker is about to register (`NewPool` starts
`W` workers and the dispatcher), and `Release` has not been called yet. -/
def initSys (W Q : Nat) (arr : List Nat) : Sys W Q :=
  { arrivals := arr, queue := [], pool := [],
    workers := fun _ => .register, disp := .select, rel := .callRelease }

/-- The number of workers whose state is `stopped`. -/
def stoppedCard {W Q : Nat} (s : Sys W Q) : Nat :=
  (Finset.univ.filter fun w => s.workers w = WState.stopped).card

/-- Whether a worker state is executing a job. -/
def isRunning : WState → Bool
  | .running _ => true
  | _ => false

/-- The number of workers currently executing a job — the number of
concurrently executing jobs, since each worker runs a job synchronously. -/
def runningCount {W Q : Nat} (s : Sys W Q) : Nat :=
  (Finset.univ.filter fun w => isRunning (s.workers w) = true).card

/-- No worker has entered the stop handshake. -/
def noStopping {W Q : Nat} (s : Sys W Q) : Prop :=
  ∀ w : Fin W, s.workers w ≠ WState.acking ∧ s.workers w ≠ WState.stopped

/-- No worker is mid stop-handshake (about to acknowledge). -/
def noAcking {W Q : Nat} (s : Sys W Q) : Prop :=
  ∀ w : Fin W, s.workers w ≠ WState.acking

/-- The dispatcher-indexed part of the system invariant, one conjunct per
dispatcher control point. -/
def dispInv {W Q : Nat} (s : Sys W Q) : Prop :=
  ((s.disp = .select ∨ (∃ j, s.disp = .gotJob j) ∨ ∃ j w, s.disp = .handJob j w) →
      noStopping s ∧ s.rel = .callRelease)
  ∧ (∀ j w, s.disp = .handJob j w → s.workers w = .waiting ∧ w ∉ s.pool)
  ∧ (∀ i, s.disp = .drain i →
      stoppedCard s = i ∧ i ≤ W ∧ noAcking s ∧ s.rel = .waitAck)
  ∧ (∀ i w, s.disp = .drainSend i w →
      stoppedCard s = i ∧ i < W ∧ s.workers w = .waiting ∧ w ∉ s.pool
        ∧ noAcking s ∧ s.rel = .waitAck)
  ∧ (∀ i w, s.disp = .drainWait i w →
      stoppedCard s = i ∧ i < W ∧ s.workers w = .acking ∧ w ∉ s.pool
        ∧ (∀ x, s.workers x = .acking → x = w) ∧ s.rel = .waitAck)
  ∧ (s.disp = .finalAck → stoppedCard s = W ∧ s.rel = .waitAck)
  ∧ (s.disp = .returned → stoppedCard s = W ∧ s.rel = .done)
  ∧ (s.rel = .done → s.disp = .returned)

/-- The full system invariant: the idle registry holds each worker at most
once and only waiting workers, the queue respects its capacity, and the
dispatcher invariant holds. -/
def SysInv {W Q : Nat} (s : Sys W Q) : Prop :=
  s.pool.Nodup ∧ (∀ w ∈ s.pool, s.workers w = WState.waiting)
    ∧ s.queue.length ≤ Q ∧ dispInv s

theorem update_ne_of_ne {W : Nat} (f : Fin W → WState) (w : Fin W) (v st : WState)
    (hf : ∀ x, f x ≠ st) (hv : v ≠ st) : ∀ x, Function.update f w v x ≠ st := by
  intro x
  rcases eq_or_ne x w with rfl | hx
  · rw [Function.update_same]; exact hv
  · rw [Function.update_noteq hx]; exact hf x

theorem filterStopped_update_eq {W : Nat} (f : Fin W → WState) (w : Fin W) (v : WState)
    (h1 : f w ≠ WState.stopped) (h2 : v ≠ WState.stopped) :
    (Finset.univ.filter fun x => Function.update f w v x = WState.stopped)
      = Finset.univ.filter fun x => f x = WState.stopped := by
  ext x
  simp only [Finset.mem_filter, Finset.mem_univ, true_and]
  rcases eq_or_ne x w with rfl | hx
  · rw [Function.update_same]
    exact iff_of_false h2 h1
  · rw [Function.update_noteq hx]

theorem filterStopped_update_insert {W : Nat} (f : Fin W → WState) (w : Fin W)
    (h1 : f w ≠ WState.stopped) :
    (Finset.univ.filter fun x => Function.update f w WState.stopped x = WState.stopped)
      = insert w (Finset.univ.filter fun x => f x = WState.stopped) := by
  ext x
  simp only [Finset.mem_filter, Finset.mem_univ, true_and, Finset.mem_insert]
  rcases eq_or_ne x w with rfl | hx
  · simp [Function.update_same]
  · rw [Function.update_noteq hx]
    simp [hx]

theorem stoppedCard_eq_zero {W Q : Nat} (s : Sys W Q)
    (h : ∀ x : Fin W, s.workers x ≠ WState.stopped) : stoppedCard s = 0 := by
  unfold stoppedCard
  rw [Finset.card_eq_zero, Finset.filter_eq_empty_iff]
  intro x _
  exact h x

theorem all_stopped_of_card {W Q : Nat} (s : Sys W Q) (h : stoppedCard s = W) :
    ∀ w, s.workers w = WState.stopped := by
  have hc : (Finset.univ : Finset (Fin W)).card
      ≤ (Finset.univ.filter fun x => s.workers x = WState.stopped).card := by
    rw [Finset.card_univ, Fintype.card_fin]
    exact le_of_eq h.symm
  have huniv := Finset.eq_of_subset_of_card_le (Finset.filter_subset _ _) hc
  intro w
  have hw : w ∈ Finset.univ.filter fun x => s.workers x = WState.stopped := by
    rw [huniv]; exact Finset.mem_univ w
  exact (Finset.mem_filter.mp hw).2

theorem initSys_inv (W Q : Nat) (arr : List Nat) : SysInv (initSys W Q arr) := by
  unfold SysInv dispInv
  refine ⟨List.nodup_nil, ?_, ?_, ?_, ?_, ?_, ?_, ?_, ?_, ?_, ?_⟩
  · intro w hw; cases hw
  · exact Nat.zero_le Q
  · intro h
    constructor
    · intro w
      constructor
      · intro h2
        cases h2
      · intro h2
        cases h2
    · rfl
  · intro j w h; cases h
  · intro i h; cases h
  · intro i w h; cases h
  · intro i w h; cases h
  · intro h; cases h
  · intro h; cases h
  · intro h; cases h

theorem stoppedCard_eq_of_workers {W Q : Nat} (s t : Sys W Q) {w : Fin W} {v : WState}
    (h : t.workers = Function.update s.workers w v)
    (h1 : s.workers w ≠ WState.stopped) (h2 : v ≠ WState.stopped) :
    stoppedCard t = stoppedCard s := by
  unfold stoppedCard
  rw [h]
  exact congrArg Finset.card (filterStopped_update_eq s.workers w v h1 h2)

theorem stoppedCard_update_stopped {W Q : Nat} (s t : Sys W Q) {w : Fin W}
    (h : t.workers = Function.update s.workers w WState.stopped)
    (h1 : s.workers w ≠ WState.stopped) :
    stoppedCard t = stoppedCard s + 1 := by
  unfold stoppedCard
  rw [h, filterStopped_update_insert s.workers w h1]
  refine Finset.card_insert_of_not_mem ?_
  simp only [Finset.mem_filter, Finset.mem_univ, true_and]
  exact h1

theorem sysInv_step {W Q : Nat} {s t : Sys W Q} (hinv : SysInv s) (hst : Step s t) :
    SysInv t := by
  unfold SysInv dispInv at hinv ⊢
  obtain ⟨hnd, hpw, hq, hPre, hHand, hDrain, hDSend, hDWait, hFinal, hRet, hRelDone⟩ := hinv
  cases hst with
  | arrive j rest ha hlen =>
    dsimp only
    refine ⟨hnd, hpw, ?_, hPre, hHand, hDrain, hDSend, hDWait, hFinal, hRet, hRelDone⟩
    show (s.queue ++ [j]).length ≤ Q
    rw [List.length_append]
    simpa using hlen
  | regWorker w hw hlen =>
    dsimp only
    have hwnp : w ∉ s.pool := by
      intro hmem
      have hx := hpw w hmem
      rw [hw] at hx
      cases hx
    have hne_of_wait : ∀ x, s.workers x = WState.waiting → x ≠ w := by
      intro x hx h
      rw [h, hw] at hx
      cases hx
    have hne_of_ack : ∀ x, s.workers x = WState.acking → x ≠ w := by
      intro x hx h
      rw [h, hw] at hx
      cases hx
    have hww : s.workers w ≠ WState.stopped := by
      rw [hw]; decide
    refine ⟨?_, ?_, hq, ?_, ?_, ?_, ?_, ?_, ?_, ?_, ?_⟩
    · simp [List.nodup_append, hnd, hwnp]
    · intro x hx
      rcases List.mem_append.mp hx with hxp | hxw
      · rw [Function.update_noteq (hne_of_wait x (hpw x hxp))]
        exact hpw x hxp
      · have hxe : x = w := by simpa using hxw
        subst hxe
        rw [Function.update_same]
    · intro hd
      obtain ⟨hns, hrel⟩ := hPre hd
      refine ⟨fun x => ⟨?_, ?_⟩, hrel⟩
      · exact update_ne_of_ne s.workers w _ _ (fun y => (hns y).1) (by decide) x
      · exact update_ne_of_ne s.workers w _ _ (fun y => (hns y).2) (by decide) x
    · intro j0 w0 hd
      obtain ⟨hw0, hw0p⟩ := hHand j0 w0 hd
      have hne : w0 ≠ w := hne_of_wait w0 hw0
      constructor
      · show Function.update s.workers w WState.waiting w0 = WState.waiting
        rw [Function.update_noteq hne]
        exact hw0
      · intro hmem
        rcases List.mem_append.mp hmem with h1 | h2
        · exact hw0p h1
        · exact hne (by simpa using h2)
    · intro i hd
      obtain ⟨hcard, hle, hna, hrel⟩ := hDrain i hd
      refine ⟨?_, hle, ?_, hrel⟩
      · exact (stoppedCard_eq_of_workers s _ rfl hww (by decide)).trans hcard
      · exact update_ne_of_ne s.workers w _ _ hna (by decide)
    · intro i w0 hd
      obtain ⟨hcard, hlt, hw0, hw0p, hna, hrel⟩ := hDSend i w0 hd
      have hne : w0 ≠ w := hne_of_wait w0 hw0
      refine ⟨?_, hlt, ?_, ?_, ?_, hrel⟩
      · exact (stoppedCard_eq_of_workers s _ rfl hww (by decide)).trans hcard
      · show Function.update s.workers w WState.waiting w0 = WState.waiting
        rw [Function.update_noteq hne]
        exact hw0
      · intro hmem
        rcases List.mem_append.mp hmem with h1 | h2
        · exact hw0p h1
        · exact hne (by simpa using h2)
      · exact update_ne_of_ne s.workers w _ _ hna (by decide)
    · intro i w0 hd
      obtain ⟨hcard, hlt, hw0, hw0p, honly, hrel⟩ := hDWait i w0 hd
      have hne : w0 ≠ w := hne_of_ack w0 hw0
      refine ⟨?_, hlt, ?_, ?_, ?_, hrel⟩
      · exact (stoppedCard_eq_of_workers s _ rfl hww (by decide)).trans hcard
      · show Function.update s.workers w WState.waiting w0 = WState.acking
        rw [Function.update_noteq hne]
        exact hw0
      · intro hmem
        rcases List.mem_append.mp hmem with h1 | h2
        · exact hw0p h1
        · exact hne (by simpa using h2)
      · intro x hx
        rcases eq_or_ne x w with rfl | hxne
        · rw [Function.update_same] at hx
          cases hx
        · rw [Function.update_noteq hxne] at hx
          exact honly x hx
    · intro hd
      obtain ⟨hcard, hrel⟩ := hFinal hd
      exact ⟨(stoppedCard_eq_of_workers s _ rfl hww (by decide)).trans hcard, hrel⟩
    · intro hd
      obtain ⟨hcard, hrel⟩ := hRet hd
      exact ⟨(stoppedCard_eq_of_workers s _ rfl hww (by decide)).trans hcard, hrel⟩
    · intro hr
      exact hRelDone hr
  | finish w j hw =>
    dsimp only
    have hne_of_wait : ∀ x, s.workers x = WState.waiting → x ≠ w := by
      intro x hx h
      rw [h, hw] at hx
      cases hx
    have hne_of_ack : ∀ x, s.workers x = WState.acking → x ≠ w := by
      intro x hx h
      rw [h, hw] at hx
      cases hx
    have hww : s.workers w ≠ WState.stopped := by
      rw [hw]; intro h; cases h
    refine ⟨hnd, ?_, hq, ?_, ?_, ?_, ?_, ?_, ?_, ?_, ?_⟩
    · intro x hx
      rw [Function.update_noteq (hne_of_wait x (hpw x hx))]
      exact hpw x hx
    · intro hd
      obtain ⟨hns, hrel⟩ := hPre hd
      refine ⟨fun x => ⟨?_, ?_⟩, hrel⟩
      · exact update_ne_of_ne s.workers w _ _ (fun y => (hns y).1) (by decide) x
      · exact update_ne_of_ne s.workers w _ _ (fun y => (hns y).2) (by decide) x
    · intro j0 w0 hd
      obtain ⟨hw0, hw0p⟩ := hHand j0 w0 hd
      constructor
      · show Function.update s.workers w WState.register w0 = WState.waiting
        rw [Function.update_noteq (hne_of_wait w0 hw0)]
        exact hw0
      · exact hw0p
    · intro i hd
      obtain ⟨hcard, hle, hna, hrel⟩ := hDrain i hd
      refine ⟨?_, hle, ?_, hrel⟩
      · exact (stoppedCard_eq_of_workers s _ rfl hww (by decide)).trans hcard
      · exact update_ne_of_ne s.workers w _ _ hna (by decide)
    · intro i w0 hd
      obtain ⟨hcard, hlt, hw0, hw0p, hna, hrel⟩ := hDSend i w0 hd
      refine ⟨?_, hlt, ?_, hw0p, ?_, hrel⟩
      · exact (stoppedCard_eq_of_workers s _ rfl hww (by decide)).trans hcard
      · show Function.update s.workers w WState.register w0 = WState.waiting
        rw [Function.update_noteq (hne_of_wait w0 hw0)]
        exact hw0
      · exact update_ne_of_ne s.workers w _ _ hna (by decide)
    · intro i w0 hd
      obtain ⟨hcard, hlt, hw0, hw0p, honly, hrel⟩ := hDWait i w0 hd
      refine ⟨?_, hlt, ?_, hw0p, ?_, hrel⟩
      · exact (stoppedCard_eq_of_workers s _ rfl hww (by decide)).trans hcard
      · show Function.update s.workers w WState.register w0 = WState.acking
        rw [Function.update_noteq (hne_of_ack w0 hw0)]
        exact hw0
      · intro x hx
        rcases eq_or_ne x w with rfl | hxne
        · rw [Function.update_same] at hx
          cases hx
        · rw [Function.update_noteq hxne] at hx
          exact honly x hx
    · intro hd
      obtain ⟨hcard, hrel⟩ := hFinal hd
      exact ⟨(stoppedCard_eq_of_workers s _ rfl hww (by decide)).trans hcard, hrel⟩
    · intro hd
      obtain ⟨hcard, hrel⟩ := hRet hd
      exact ⟨(stoppedCard_eq_of_workers s _ rfl hww (by decide)).trans hcard, hrel⟩
    · intro hr
      exact hRelDone hr
  | takeJob j rest hds hqe =>
    dsimp only
    obtain ⟨hns, hrel⟩ := hPre (Or.inl hds)
    refine ⟨hnd, hpw, ?_, ?_, ?_, ?_, ?_, ?_, ?_, ?_, ?_⟩
    · rw [hqe] at hq
      simp only [List.length_cons] at hq
      omega
    · intro hd
      exact ⟨hns, hrel⟩
    · intro j0 w0 hd
      cases hd
    · intro i hd
      cases hd
    · intro i w0 hd
      cases hd
    · intro i w0 hd
      cases hd
    · intro hd
      cases hd
    · intro hd
      cases hd
    · intro hr
      rw [hrel] at hr
      cases hr
  | takeWorker j w ps hds hpe =>
    dsimp only
    obtain ⟨hns, hrel⟩ := hPre (Or.inr (Or.inl ⟨j, hds⟩))
    have hndc := hpe ▸ hnd
    refine ⟨(List.nodup_cons.mp hndc).2, ?_, hq, ?_, ?_, ?_, ?_, ?_, ?_, ?_, ?_⟩
    · intro x hx
      exact hpw x (by rw [hpe]; exact List.mem_cons_of_mem w hx)
    · intro hd
      exact ⟨hns, hrel⟩
    · intro j0 w0 hd
      cases hd
      constructor
      · exact hpw w (by rw [hpe]; exact List.mem_cons_self w ps)
      · exact (List.nodup_cons.mp hndc).1
    · intro i hd
      cases hd
    · intro i w0 hd
      cases hd
    · intro i w0 hd
      cases hd
    · intro hd
      cases hd
    · intro hd
      cases hd
    · intro hr
      rw [hrel] at hr
      cases hr
  | hand j w hds hww =>
    dsimp only
    obtain ⟨hns, hrel⟩ := hPre (Or.inr (Or.inr ⟨j, w, hds⟩))
    obtain ⟨hw_, hwp⟩ := hHand j w hds
    have hne_of_wait : ∀ x, x ∈ s.pool → x ≠ w := by
      intro x hx h
      exact hwp (h ▸ hx)
    refine ⟨hnd, ?_, hq, ?_, ?_, ?_, ?_, ?_, ?_, ?_, ?_⟩
    · intro x hx
      rw [Function.update_noteq (hne_of_wait x hx)]
      exact hpw x hx
    · intro hd
      refine ⟨fun x => ⟨?_, ?_⟩, hrel⟩
      · exact update_ne_of_ne s.workers w _ _ (fun y => (hns y).1)
          (fun h => WState.noConfusion h) x
      · exact update_ne_of_ne s.workers w _ _ (fun y => (hns y).2)
          (fun h => WState.noConfusion h) x
    · intro j0 w0 hd
      cases hd
    · intro i hd
      cases hd
    · intro i w0 hd
      cases hd
    · intro i w0 hd
      cases hd
    · intro hd
      cases hd
    · intro hd
      cases hd
    · intro hr
      rw [hrel] at hr
      cases hr
  | releaseSend hrc hds =>
    dsimp only
    obtain ⟨hns, hrel⟩ := hPre (Or.inl hds)
    refine ⟨hnd, hpw, hq, ?_, ?_, ?_, ?_, ?_, ?_, ?_, ?_⟩
    · intro hd
      rcases hd with h | ⟨j0, h⟩ | ⟨j0, w0, h⟩ <;> cases h
    · intro j0 w0 hd
      cases hd
    · intro i hd
      cases hd
      refine ⟨?_, Nat.zero_le W, fun x => (hns x).1, rfl⟩
      exact stoppedCard_eq_zero s fun x => (hns x).2
    · intro i w0 hd
      cases hd
    · intro i w0 hd
      cases hd
    · intro hd
      cases hd
    · intro hd
      cases hd
    · intro hr
      cases hr
  | drainPop i w ps hds hi hpe =>
    dsimp only
    obtain ⟨hcard, hle, hna, hrel⟩ := hDrain i hds
    have hndc := hpe ▸ hnd
    refine ⟨(List.nodup_cons.mp hndc).2, ?_, hq, ?_, ?_, ?_, ?_, ?_, ?_, ?_, ?_⟩
    · intro x hx
      exact hpw x (by rw [hpe]; exact List.mem_cons_of_mem w hx)
    · intro hd
      rcases hd with h | ⟨j0, h⟩ | ⟨j0, w0, h⟩ <;> cases h
    · intro j0 w0 hd
      cases hd
    · intro i0 hd
      cases hd
    · intro i0 w0 hd
      cases hd
      refine ⟨hcard, hi, ?_, ?_, hna, hrel⟩
      · exact hpw w (by rw [hpe]; exact List.mem_cons_self w ps)
      · exact (List.nodup_cons.mp hndc).1
    · intro i0 w0 hd
      cases hd
    · intro hd
      cases hd
    · intro hd
      cases hd
    · intro hr
      rw [hrel] at hr
      cases hr
  | drainDone i hds hni =>
    dsimp only
    obtain ⟨hcard, hle, hna, hrel⟩ := hDrain i hds
    have hiW : i = W := Nat.le_antisymm hle (Nat.le_of_not_lt hni)
    refine ⟨hnd, hpw, hq, ?_, ?_, ?_, ?_, ?_, ?_, ?_, ?_⟩
    · intro hd
      rcases hd with h | ⟨j0, h⟩ | ⟨j0, w0, h⟩ <;> cases h
    · intro j0 w0 hd
      cases hd
    · intro i0 hd
      cases hd
    · intro i0 w0 hd
      cases hd
    · intro i0 w0 hd
      cases hd
    · intro hd
      exact ⟨hiW ▸ hcard, hrel⟩
    · intro hd
      cases hd
    · intro hr
      rw [hrel] at hr
      cases hr
  | stopSend i w hds hww =>
    dsimp only
    obtain ⟨hcard, hlt, hw_, hwp, hna, hrel⟩ := hDSend i w hds
    have hne_of_pool : ∀ x, x ∈ s.pool → x ≠ w := by
      intro x hx h
      exact hwp (h ▸ hx)
    have hwns : s.workers w ≠ WState.stopped := by
      rw [hww]; intro h; cases h
    refine ⟨hnd, ?_, hq, ?_, ?_, ?_, ?_, ?_, ?_, ?_, ?_⟩
    · intro x hx
      rw [Function.update_noteq (hne_of_pool x hx)]
      exact hpw x hx
    · intro hd
      rcases hd with h | ⟨j0, h⟩ | ⟨j0, w0, h⟩ <;> cases h
    · intro j0 w0 hd
      cases hd
    · intro i0 hd
      cases hd
    · intro i0 w0 hd
      cases hd
    · intro i0 w0 hd
      cases hd
      refine ⟨?_, hlt, ?_, hwp, ?_, hrel⟩
      · exact (stoppedCard_eq_of_workers s _ rfl hwns (by decide)).trans hcard
      · show Function.update s.workers w WState.acking w = WState.acking
        rw [Function.update_same]
      · intro x hx
        rcases eq_or_ne x w with rfl | hxne
        · rfl
        · rw [Function.update_noteq hxne] at hx
          exact absurd hx (hna x)
    · intro hd
      cases hd
    · intro hd
      cases hd
    · intro hr
      rw [hrel] at hr
      cases hr
  | stopAck i w hds hwa =>
    dsimp only
    obtain ⟨hcard, hlt, hwack, hwp, honly, hrel⟩ := hDWait i w hds
    have hne_of_pool : ∀ x, x ∈ s.pool → x ≠ w := by
      intro x hx h
      exact hwp (h ▸ hx)
    have hwns : s.workers w ≠ WState.stopped := by
      rw [hwa]; intro h; cases h
    refine ⟨hnd, ?_, hq, ?_, ?_, ?_, ?_, ?_, ?_, ?_, ?_⟩
    · intro x hx
      rw [Function.update_noteq (hne_of_pool x hx)]
      exact hpw x hx
    · intro hd
      rcases hd with h | ⟨j0, h⟩ | ⟨j0, w0, h⟩ <;> cases h
    · intro j0 w0 hd
      cases hd
    · intro i0 hd
      cases hd
      refine ⟨?_, by omega, ?_, hrel⟩
      · exact (stoppedCard_update_stopped s _ rfl hwns).trans (by rw [hcard])
      · intro x
        dsimp only
        rcases eq_or_ne x w with rfl | hxne
        · rw [Function.update_same]
          intro h
          cases h
        · rw [Function.update_noteq hxne]
          intro hx
          exact hxne (honly x hx)
    · intro i0 w0 hd
      cases hd
    · intro i0 w0 hd
      cases hd
    · intro hd
      cases hd
    · intro hd
      cases hd
    · intro hr
      rw [hrel] at hr
      cases hr
  | finalAckStep hds hra =>
    dsimp only
    obtain ⟨hcard, hrel⟩ := hFinal hds
    refine ⟨hnd, hpw, hq, ?_, ?_, ?_, ?_, ?_, ?_, ?_, ?_⟩
    · intro hd
      rcases hd with h | ⟨j0, h⟩ | ⟨j0, w0, h⟩ <;> cases h
    · intro j0 w0 hd
      cases hd
    · intro i0 hd
      cases hd
    · intro i0 w0 hd
      cases hd
    · intro i0 w0 hd
      cases hd
    · intro hd
      cases hd
    · intro hd
      exact ⟨hcard, rfl⟩
    · intro hr
      rfl

theorem reach_inv {W Q : Nat} (arr : List Nat) (s : Sys W Q)
    (h : Reach (initSys W Q arr) s) : SysInv s := by
  induction h with
  | refl => exact initSys_inv W Q arr
  | tail hr hs ih => exact sysInv_step ih hs

/-- Claim C4: in every reachable state of the pool — for every worker count
`W`, queue capacity `Q` and submission burst — at most `W` jobs execute
concurrently (each worker executes at most one job at a time, being one
sequential process with one state); the idle-worker registry holds each
worker at most once; and a worker executing a job is never in the registry,
since the dispatcher assigns a job only after removing exactly one worker
from the registry. -/
theorem bounded_concurrency {W Q : Nat} (arr : List Nat) (s : Sys W Q)
    (h : Reach (initSys W Q arr) s) :
    runningCount s ≤ W ∧ s.pool.Nodup
      ∧ ∀ (w : Fin W) (j : Nat), s.workers w = WState.running j → w ∉ s.pool := by
  have hinv := reach_inv arr s h
  unfold SysInv at hinv
  obtain ⟨hnd, hpw, hq, hdisp⟩ := hinv
  refine ⟨?_, hnd, ?_⟩
  · calc runningCount s ≤ (Finset.univ : Finset (Fin W)).card := Finset.card_filter_le _ _
      _ = W := by rw [Finset.card_univ, Fintype.card_fin]
  · intro w j hw hmem
    have hx := hpw w hmem
    rw [hw] at hx
    cases hx

/-- Claim C5: `Release` blocks until the stop-all drain completes — when the
`Release` caller has returned, the dispatcher has returned and every worker
is stopped, and no further step changes any worker's state (no worker
remains runnable); moreover a worker mid-execution is never interrupted: the
only transition out of a running state is the worker itself finishing its
job. -/
theorem release_graceful_drain {W Q : Nat} (arr : List Nat) (s : Sys W Q)
    (h : Reach (initSys W Q arr) s) :
    (s.rel = RState.done →
      s.disp = DState.returned ∧ (∀ w, s.workers w = WState.stopped)
        ∧ ∀ t : Sys W Q, Step s t → t.workers = s.workers)
    ∧ ∀ (t : Sys W Q) (w : Fin W) (j : Nat), Step s t → s.workers w = WState.running j →
        t.workers w = WState.running j ∨ t.workers w = WState.register := by
  have hinv := reach_inv arr s h
  unfold SysInv dispInv at hinv
  obtain ⟨hnd, hpw, hq, hPre, hHand, hDrain, hDSend, hDWait, hFinal, hRet, hRelDone⟩ := hinv
  constructor
  · intro hr
    have hdisp := hRelDone hr
    have hcard := (hRet hdisp).1
    have hstopped := all_stopped_of_card s hcard
    refine ⟨hdisp, hstopped, ?_⟩
    intro t hst
    cases hst with
    | arrive j rest ha hlen => rfl
    | regWorker w hw hlen => rw [hstopped w] at hw; cases hw
    | finish w j hw => rw [hstopped w] at hw; cases hw
    | takeJob j rest hds hqe => rfl
    | takeWorker j w ps hds hpe => rfl
    | hand j w hds hww => rw [hdisp] at hds; cases hds
    | releaseSend hrc hds => rfl
    | drainPop i w ps hds hi hpe => rfl
    | drainDone i hds hni => rfl
    | stopSend i w hds hww => rw [hdisp] at hds; cases hds
    | stopAck i w hds hwa => rw [hdisp] at hds; cases hds
    | finalAckStep hds hra => rfl
  · intro t w j hst hw
    cases hst with
    | arrive j2 rest ha hlen => exact Or.inl hw
    | regWorker w2 hw2 hlen =>
      dsimp only
      rcases eq_or_ne w w2 with rfl | hne
      · rw [hw] at hw2; cases hw2
      · rw [Function.update_noteq hne]; exact Or.inl hw
    | finish w2 j2 hw2 =>
      dsimp only
      rcases eq_or_ne w w2 with rfl | hne
      · rw [Function.update_same]; exact Or.inr rfl
      · rw [Function.update_noteq hne]; exact Or.inl hw
    | takeJob j2 rest hds hqe => exact Or.inl hw
    | takeWorker j2 w2 ps hds hpe => exact Or.inl hw
    | hand j2 w2 hds hww =>
      dsimp only
      rcases eq_or_ne w w2 with rfl | hne
      · rw [hw] at hww; cases hww
      · rw [Function.update_noteq hne]; exact Or.inl hw
    | releaseSend hrc hds => exact Or.inl hw
    | drainPop i w2 ps hds hi hpe => exact Or.inl hw
    | drainDone i hds hni => exact Or.inl hw
    | stopSend i w2 hds hww =>
      dsimp only
      rcases eq_or_ne w w2 with rfl | hne
      · rw [hw] at hww; cases hww
      · rw [Function.update_noteq hne]; exact Or.inl hw
    | stopAck i w2 hds hwa =>
      dsimp only
      rcases eq_or_ne w w2 with rfl | hne
      · rw [hw] at hwa; cases hwa
      · rw [Function.update_noteq hne]; exact Or.inl hw
    | finalAckStep hds hra => exact Or.inl hw

/-- A concrete reachable state of a one-worker pool: the single worker has
registered, been handed job 7 by the dispatcher, and is executing it. -/
def c4demo : Sys 1 1 :=
  { arrivals := [], queue := [], pool := [],
    workers := Function.update (Function.update (fun _ => WState.register) 0 WState.waiting)
      0 (WState.running 7),
    disp := DState.select, rel := RState.callRelease }

theorem bounded_concurrency_witness :
    runningCount c4demo ≤ 1 ∧ c4demo.pool.Nodup := by
  have h := bounded_concurrency [7] c4demo
    (Reach.tail (Reach.tail (Reach.tail (Reach.tail (Reach.tail Reach.refl
      (Step.arrive (initSys 1 1 [7]) 7 [] rfl (by decide)))
      (Step.regWorker _ 0 rfl (by decide)))
      (Step.takeJob _ 7 [] rfl rfl))
      (Step.takeWorker _ 7 0 [] rfl rfl))
      (Step.hand _ 7 0 rfl (by decide)))
  exact ⟨h.1, h.2.1⟩

/-- A concrete final state of a one-worker pool after a complete
register / Release / stop-handshake run. -/
def c5demo : Sys 1 1 :=
  { arrivals := [], queue := [], pool := [],
    workers := Function.update (Function.update (Function.update
      (fun _ => WState.register) 0 WState.waiting) 0 WState.acking) 0 WState.stopped,
    disp := DState.returned, rel := RState.done }

theorem release_graceful_drain_witness :
    c5demo.disp = DState.returned ∧ c5demo.workers 0 = WState.stopped := by
  have h := (release_graceful_drain [] c5demo
    (Reach.tail (Reach.tail (Reach.tail (Reach.tail (Reach.tail (Reach.tail (Reach.tail
      Reach.refl
      (Step.regWorker (initSys 1 1 []) 0 rfl (by decide)))
      (Step.releaseSend _ rfl rfl))
      (Step.drainPop _ 0 0 [] rfl (by decide) rfl))
      (Step.stopSend _ 0 0 rfl (by decide)))
      (Step.stopAck _ 0 0 rfl (by decide)))
      (Step.drainDone _ 1 rfl (by decide)))
      (Step.finalAckStep _ rfl rfl))).1 rfl
  exact ⟨h.1, h.2.1 0⟩

end RabbitCliConsumer
